import Mathlib

/-!
Shallow embedding of `src/bit.rs` (crate `libflate`, module `bit`):
a LSB-first bit-packing `BitWriter` over an in-memory byte sink and a
bit-unpacking `BitReader` over an in-memory byte source.

Machine integers are embedded as `Nat` with explicit `% 2^w` where the
Rust types truncate: the writer's `buf : u32` accumulator, the `u16`
`bits` argument, `u8` bytes.  The `Vec<u8>` sink is the `output` field;
the byte source is the `input` list (reading a byte from `[]` is the
end-of-stream error).  Rust loops (`flush`'s drain loop, `peek_bits`'s
refill loop) are embedded with an explicit structural fuel argument so
that every definition computes by kernel reduction; the chosen fuel is
provably sufficient (`flushLoop_fuel_sufficient`, `peekLoop_fuel_sufficient`
below), so the fuel-exhausted branch is unreachable.
-/

set_option maxHeartbeats 1000000

namespace Libflate

/-- Bits `0..w-1` of `v`, least-significant first, as a list of Booleans. -/
def natBits (v : Nat) (w : Nat) : List Bool :=
  (List.range w).map v.testBit

/-- Value of a LSB-first bit list. -/
def bitsToNat : List Bool → Nat
  | [] => 0
  | b :: rest => (if b then 1 else 0) + 2 * bitsToNat rest

/-- The 8 bits of a byte, least-significant first. -/
def byteBits (b : Nat) : List Bool := natBits b 8

/-- A byte stream viewed as one contiguous LSB-first bit stream. -/
def bitsOfBytes : List Nat → List Bool
  | [] => []
  | b :: rest => byteBits b ++ bitsOfBytes rest

/-- `BitWriter<W>` with `W = Vec<u8>`: fields `buf : u32` and `end : u8`
(`end` is a Lean keyword, hence `end_`), plus the bytes written so far. -/
structure BitWriter where
  buf : Nat
  end_ : Nat
  output : List Nat
deriving DecidableEq, Repr

/-- `BitWriter::new` over a fresh in-memory sink. -/
def BitWriter.new : BitWriter := ⟨0, 0, []⟩

/-- `BitWriter::flush_if_needed`: once 16 or more bits are buffered, emit the
low 16 accumulator bits as two little-endian bytes and shift them out. -/
def flush_if_needed (w : BitWriter) : BitWriter :=
  if 16 ≤ w.end_ then
    { buf := w.buf >>> 16
      end_ := w.end_ - 16
      output := w.output ++ [w.buf % 256, (w.buf >>> 8) % 256] }
  else w

/-- `BitWriter::write_bits`: `self.buf |= (bits as u16 as u32) << self.end;
self.end += bitwidth; self.flush_if_needed()`.  Note the source ORs the whole
16-bit `bits` value into the accumulator without masking it to `bitwidth`. -/
def write_bits (w : BitWriter) (bitwidth : Nat) (bits : Nat) : BitWriter :=
  flush_if_needed
    { w with
        buf := (w.buf ||| ((bits % 65536) <<< w.end_)) % 4294967296
        end_ := w.end_ + bitwidth }

/-- `BitWriter::write_bit`: `write_bits(1, bit as u16)`. -/
def write_bit (w : BitWriter) (bit : Bool) : BitWriter :=
  write_bits w 1 (if bit then 1 else 0)

/-- Drain loop of `BitWriter::flush`: `while end > 0 { write_u8(buf as u8);
buf >>= 8; end = end.saturating_sub(8) }` (`Nat` subtraction is saturating).
The fuel is structural; `end_` units of fuel always suffice. -/
def flushLoop : Nat → Nat → Nat → List Nat → Nat × Nat × List Nat
  | 0, buf, e, out => (buf, e, out)
  | fuel + 1, buf, e, out =>
    if 0 < e then flushLoop fuel (buf >>> 8) (e - 8) (out ++ [buf % 256])
    else (buf, e, out)

/-- `BitWriter::flush`: drain all buffered bits, one byte at a time
(the trailing `inner.flush()` is a no-op on the in-memory sink). -/
def BitWriter.flush (w : BitWriter) : BitWriter :=
  let r := flushLoop w.end_ w.buf w.end_ w.output
  { buf := r.1, end_ := r.2.1, output := r.2.2 }

/-- A public `BitWriter` operation. -/
inductive WOp where
  | wbit (b : Bool)
  | wbits (width value : Nat)
  | wflush
deriving DecidableEq, Repr

/-- Apply one public writer operation. -/
def applyOp (w : BitWriter) : WOp → BitWriter
  | .wbit b => write_bit w b
  | .wbits width value => write_bits w width value
  | .wflush => w.flush

/-- Apply a sequence of public writer operations in order. -/
def applyOps (w : BitWriter) : List WOp → BitWriter
  | [] => w
  | op :: rest => applyOps (applyOp w op) rest

/-- Documented precondition of each public writer operation
(`debug_assert!(bitwidth < 16)`; `write_bit` and `flush` have none). -/
def WOp.pre : WOp → Prop
  | .wbit _ => True
  | .wbits width _ => width < 16
  | .wflush => True

instance : DecidablePred WOp.pre := by
  intro op
  unfold WOp.pre
  cases op <;> infer_instance

/-- Write a list of `(width, value)` pairs via `write_bits`, in order. -/
def writeAll (w : BitWriter) : List (Nat × Nat) → BitWriter
  | [] => w
  | p :: rest => writeAll (write_bits w p.1 p.2) rest

/-- The LSB-first bit stream denoted by a list of `(width, value)` pairs. -/
def pairsBits : List (Nat × Nat) → List Bool
  | [] => []
  | p :: rest => natBits p.2 p.1 ++ pairsBits rest

/-- Bytes emitted by writing a list of pairs on a fresh writer and flushing. -/
def encode (pairs : List (Nat × Nat)) : List Nat :=
  ((writeAll BitWriter.new pairs).flush).output

/-- The bit stream a writer state denotes: bytes already emitted followed by
the `end_` buffered bits of the accumulator. -/
def writerBits (w : BitWriter) : List Bool :=
  bitsOfBytes w.output ++ natBits w.buf w.end_

/-- `BitReader<R>` with an in-memory source: `last_read : u32`,
`offset : u8`, and the not-yet-read suffix of the source bytes. -/
structure BitReader where
  input : List Nat
  last_read : Nat
  offset : Nat
deriving DecidableEq, Repr

/-- `BitReader::new`: empty bit buffer (`offset = 32`), no byte fetched. -/
def BitReader.new (input : List Nat) : BitReader := ⟨input, 0, 32⟩

/-- `BitReader::fill_next_u8`: mutates `offset -= 8; last_read >>= 8` first,
then attempts the fallible byte read; on end-of-stream (`input = []`) the
mutation has already happened.  Returns the new state and a success flag. -/
def fill_next_u8 (r : BitReader) : BitReader × Bool :=
  let r1 : BitReader := { r with offset := r.offset - 8, last_read := r.last_read >>> 8 }
  match r1.input with
  | [] => (r1, false)
  | b :: rest =>
      ({ r1 with input := rest, last_read := r1.last_read ||| ((b % 256) <<< 24) }, true)

/-- Refill loop of `BitReader::peek_bits`: `while (32 - offset) < bitwidth {
fill_next_u8()? }`.  Each loop iteration consumes one source byte or stops,
so `input.length + 1` units of structural fuel always suffice. -/
def peekLoop : Nat → BitReader → Nat → BitReader × Bool
  | 0, r, _ => (r, true)
  | fuel + 1, r, bitwidth =>
    if 32 - r.offset < bitwidth then
      match fill_next_u8 r with
      | (r1, true) => peekLoop fuel r1 bitwidth
      | (r1, false) => (r1, false)
    else (r, true)

/-- `BitReader::peek_bits`: refill until `bitwidth` bits are buffered, then
return `((last_read >> offset) as u16) & ((1u16 << bitwidth) - 1)`.  The
mask is computed in `u16`, whose shift masks its amount to `bitwidth % 16`
(release semantics; a debug build panics when `bitwidth = 16`), hence
`2 ^ (bitwidth % 16) - 1`.  The state is returned also on failure. -/
def peek_bits (r : BitReader) (bitwidth : Nat) : Option Nat × BitReader :=
  match peekLoop (r.input.length + 1) r bitwidth with
  | (r1, true) =>
      (some (((r1.last_read >>> r1.offset) % 65536) &&& (2 ^ (bitwidth % 16) - 1)), r1)
  | (r1, false) => (none, r1)

/-- `BitReader::skip_bits`: `offset += bitwidth`, fetching nothing. -/
def skip_bits (r : BitReader) (bitwidth : Nat) : BitReader :=
  { r with offset := r.offset + bitwidth }

/-- `BitReader::read_bits`: peek, then skip on success. -/
def read_bits (r : BitReader) (bitwidth : Nat) : Option Nat × BitReader :=
  match peek_bits r bitwidth with
  | (some v, r1) => (some v, skip_bits r1 bitwidth)
  | (none, r1) => (none, r1)

/-- `BitReader::read_bit`: `read_bits(1).map(|b| b != 0)`. -/
def read_bit (r : BitReader) : Option Bool × BitReader :=
  match read_bits r 1 with
  | (some v, r1) => (some (v != 0), r1)
  | (none, r1) => (none, r1)

/-- `BitReader::reset`: `offset = 32`, dropping all buffered bits; the
source and `last_read` are untouched. -/
def BitReader.reset (r : BitReader) : BitReader := { r with offset := 32 }

/-- Read a list of widths in order via `read_bits`, collecting the values;
any end-of-stream failure aborts the whole read. -/
def readAll (r : BitReader) : List Nat → Option (List Nat)
  | [] => some []
  | w :: ws =>
    match read_bits r w with
    | (some v, r1) => (readAll r1 ws).map (v :: ·)
    | (none, _) => none

/-- The unconsumed bits a reader state buffers: bits `offset..31` of
`last_read`, least-significant first. -/
def bufferedBits (r : BitReader) : List Bool :=
  natBits (r.last_read >>> r.offset) (32 - r.offset)

/-- The full remaining bit stream of a reader: buffered bits, then the bits
of the not-yet-fetched source bytes. -/
def readerStream (r : BitReader) : List Bool :=
  bufferedBits r ++ bitsOfBytes r.input

/-- Variant of `fill_next_u8` whose defensive `offset -= 8` is checked:
`none` exactly when the subtraction would underflow (`offset < 8`). -/
def fill_next_u8_checked (r : BitReader) : Option (BitReader × Bool) :=
  if r.offset < 8 then none else some (fill_next_u8 r)

/-- The `peek_bits` refill loop built on the checked fill: `none` exactly
when some reachable `fill_next_u8` call would underflow its subtraction. -/
def peekLoopChecked : Nat → BitReader → Nat → Option (BitReader × Bool)
  | 0, r, _ => some (r, true)
  | fuel + 1, r, bitwidth =>
    if 32 - r.offset < bitwidth then
      match fill_next_u8_checked r with
      | none => none
      | some (r1, true) => peekLoopChecked fuel r1 bitwidth
      | some (r1, false) => some (r1, false)
    else some (r, true)

/-- Reader well-formedness: the `u8` offset is at most 32 and the `u32`
accumulator holds a 32-bit value (both enforced by the Rust types and
maintained by every reachable operation). -/
def RWF (r : BitReader) : Prop :=
  r.offset ≤ 32 ∧ r.last_read < 4294967296

instance : DecidablePred RWF := by
  intro r
  unfold RWF
  infer_instance

/-- Writer well-formedness: the accumulator holds nothing above its `end_`
buffered bits (true of every state reachable with width-masked values). -/
def WWF (w : BitWriter) : Prop :=
  w.buf < 2 ^ w.end_

instance : DecidablePred WWF := by
  intro w
  unfold WWF
  infer_instance

end Libflate

namespace Libflate

/-! Sanity checks mirroring the crate's own `writer_works` / `reader_works`
tests, evaluated on the embedding. -/

example :
    (write_bit ((write_bits (write_bits (write_bit BitWriter.new true) 3 2) 11
        1370).flush) true).flush.output = [165, 85, 1] := by decide

example :
    (read_bit (BitReader.new [165, 213])).1 = some true := by decide

example :
    ((read_bits ((read_bit ((read_bit (BitReader.new [165, 213])).2)).2) 8)).1
      = some 105 := by decide

example :
    (read_bits (BitReader.new []) 8).1 = none := by decide

end Libflate

namespace Libflate

/-! Foundation lemmas about LSB-first bit lists. -/

theorem length_natBits (v w : Nat) : (natBits v w).length = w := by
  simp [natBits]

theorem natBits_zero_width (v : Nat) : natBits v 0 = [] := by
  simp [natBits]

theorem natBits_congr {v u : Nat} (w : Nat)
    (h : ∀ i < w, v.testBit i = u.testBit i) : natBits v w = natBits u w := by
  unfold natBits
  exact List.map_congr_left fun i hi => h i (List.mem_range.mp hi)

theorem natBits_add (v m n : Nat) :
    natBits v (m + n) = natBits v m ++ natBits (v >>> m) n := by
  unfold natBits
  rw [List.range_add, List.map_append, List.map_map]
  congr 1
  exact List.map_congr_left fun i _ => (Nat.testBit_shiftRight v).symm

theorem natBits_split {m n : Nat} (v : Nat) (h : m ≤ n) :
    natBits v n = natBits v m ++ natBits (v >>> m) (n - m) := by
  have : n = m + (n - m) := by omega
  rw [this, natBits_add]
  congr 2
  omega

theorem natBits_mod_two_pow {w w' : Nat} (v : Nat) (h : w ≤ w') :
    natBits (v % 2 ^ w') w = natBits v w := by
  refine natBits_congr w fun i hi => ?_
  rw [Nat.testBit_mod_two_pow]
  simp [Nat.lt_of_lt_of_le hi h]

theorem natBits_succ (v w : Nat) :
    natBits v (w + 1) = v.testBit 0 :: natBits (v / 2) w := by
  unfold natBits
  rw [List.range_succ_eq_map, List.map_cons, List.map_map]
  congr 1
  exact List.map_congr_left fun i _ => Nat.testBit_succ v i

theorem natBits_zero_val (w : Nat) : natBits 0 w = List.replicate w false := by
  induction w with
  | zero => simp [natBits_zero_width]
  | succ n ih => rw [natBits_succ]; simp [Nat.zero_testBit, ih, List.replicate_succ]

theorem natBits_pad {e n : Nat} (v : Nat) (hv : v < 2 ^ e) (h : e ≤ n) :
    natBits v n = natBits v e ++ List.replicate (n - e) false := by
  rw [natBits_split v h]
  congr 1
  have hz : v >>> e = 0 := by
    rw [Nat.shiftRight_eq_div_pow]
    exact Nat.div_eq_of_lt hv
  rw [hz, natBits_zero_val]

theorem bitsToNat_natBits (w : Nat) : ∀ v, bitsToNat (natBits v w) = v % 2 ^ w := by
  induction w with
  | zero => intro v; simp [natBits_zero_width, bitsToNat, Nat.mod_one]
  | succ n ih =>
      intro v
      rw [natBits_succ, bitsToNat, ih (v / 2)]
      have h0 : (if v.testBit 0 then 1 else 0) = v % 2 := by
        rcases Nat.mod_two_eq_zero_or_one v with h | h <;>
          simp [Nat.testBit_zero, h]
      rw [h0]
      have hq := Nat.div_add_mod v 2
      have hqm := Nat.div_add_mod (v / 2) (2 ^ n)
      have hlt : v / 2 % 2 ^ n < 2 ^ n := Nat.mod_lt _ (Nat.two_pow_pos n)
      have hlt2 : v % 2 ^ (n + 1) < 2 ^ (n + 1) := Nat.mod_lt _ (Nat.two_pow_pos _)
      have hpow : 2 ^ (n + 1) = 2 * 2 ^ n := by ring
      have hdd : v / 2 / 2 ^ n = v / 2 ^ (n + 1) := by
        rw [Nat.div_div_eq_div_mul, hpow]
      rw [hdd] at hqm
      rw [hpow] at hlt2
      have hv2 : 2 * (2 ^ n * (v / 2 ^ (n + 1))) + v % 2 ^ (n + 1) = v := by
        calc 2 * (2 ^ n * (v / 2 ^ (n + 1))) + v % 2 ^ (n + 1)
            = 2 ^ (n + 1) * (v / 2 ^ (n + 1)) + v % 2 ^ (n + 1) := by rw [hpow]; ring
          _ = v := Nat.div_add_mod v (2 ^ (n + 1))
      omega

end Libflate

namespace Libflate

theorem natBits_or_shift {a b e w : Nat} (ha : a < 2 ^ e) :
    natBits (a ||| (b <<< e)) (e + w) = natBits a e ++ natBits b w := by
  rw [natBits_add]
  congr 1
  · refine natBits_congr e fun i hi => ?_
    rw [Nat.testBit_lor, Nat.testBit_shiftLeft]
    have : ¬ (i ≥ e) := by omega
    simp [this]
  · refine natBits_congr w fun i _ => ?_
    rw [Nat.testBit_shiftRight, Nat.testBit_lor, Nat.testBit_shiftLeft]
    have hfa : a.testBit (e + i) = false :=
      Nat.testBit_eq_false_of_lt
        (Nat.lt_of_lt_of_le ha (Nat.pow_le_pow_right (by norm_num) (Nat.le_add_right e i)))
    have hge : e + i ≥ e := Nat.le_add_right e i
    simp [hfa, hge]

theorem take_natBits {w n : Nat} (v : Nat) (h : w ≤ n) :
    List.take w (natBits v n) = natBits v w := by
  unfold natBits
  rw [← List.map_take, List.take_range]
  rw [Nat.min_eq_left h]

theorem drop_natBits {w n : Nat} (v : Nat) (h : w ≤ n) :
    List.drop w (natBits v n) = natBits (v >>> w) (n - w) := by
  rw [natBits_split v h]
  exact List.drop_left' (length_natBits v w)

theorem bitsOfBytes_append (l1 l2 : List Nat) :
    bitsOfBytes (l1 ++ l2) = bitsOfBytes l1 ++ bitsOfBytes l2 := by
  induction l1 with
  | nil => simp [bitsOfBytes]
  | cons b rest ih => simp [bitsOfBytes, ih]

theorem natBits_mod256 (v : Nat) : natBits (v % 256) 8 = natBits v 8 := by
  show natBits (v % 2 ^ 8) 8 = natBits v 8
  exact natBits_mod_two_pow v (Nat.le_refl 8)

theorem byteBits_mod (b : Nat) : byteBits (b % 256) = byteBits b :=
  natBits_mod256 b

theorem length_bitsOfBytes (l : List Nat) : (bitsOfBytes l).length = 8 * l.length := by
  induction l with
  | nil => simp [bitsOfBytes]
  | cons b rest ih => simp [bitsOfBytes, byteBits, length_natBits, ih]; omega

/-! Writer lemmas. -/

theorem writerBits_flush_if_needed (w : BitWriter) :
    writerBits (flush_if_needed w) = writerBits w := by
  unfold flush_if_needed
  by_cases h : 16 ≤ w.end_
  · simp only [h, if_true, writerBits, bitsOfBytes_append]
    have h1 : natBits w.buf w.end_
        = natBits w.buf 8 ++ natBits (w.buf >>> 8) 8 ++ natBits (w.buf >>> 16) (w.end_ - 16) := by
      rw [natBits_split w.buf (show 8 ≤ w.end_ by omega),
          natBits_split (w.buf >>> 8) (show 8 ≤ w.end_ - 8 by omega)]
      rw [← Nat.shiftRight_add]
      have e1 : w.end_ - 8 - 8 = w.end_ - 16 := by omega
      rw [e1, List.append_assoc]
    rw [h1]
    simp only [bitsOfBytes, byteBits]
    rw [natBits_mod256, natBits_mod256]
    simp [List.append_assoc]
  · simp [h]

theorem WWF_flush_if_needed {w : BitWriter} (h : WWF w) : WWF (flush_if_needed w) := by
  unfold flush_if_needed
  by_cases h16 : 16 ≤ w.end_
  · simp only [h16, if_true]
    unfold WWF at h ⊢
    simp only
    rw [Nat.shiftRight_eq_div_pow]
    rw [Nat.div_lt_iff_lt_mul (Nat.two_pow_pos 16), ← Nat.pow_add]
    have : w.end_ - 16 + 16 = w.end_ := by omega
    rwa [this]
  · simpa [h16]

theorem flush_if_needed_end_le {w : BitWriter} (h : w.end_ ≤ 31) :
    (flush_if_needed w).end_ ≤ 15 := by
  unfold flush_if_needed
  by_cases h16 : 16 ≤ w.end_ <;> simp [h16] <;> omega

theorem write_bits_end_le {w : BitWriter} {bitwidth bits : Nat}
    (h : w.end_ ≤ 15) (hb : bitwidth < 16) :
    (write_bits w bitwidth bits).end_ ≤ 15 := by
  unfold write_bits
  exact flush_if_needed_end_le (by simp only; omega)

theorem write_bits_stream {w : BitWriter} {bitwidth bits : Nat} (hwf : WWF w)
    (hv : bits < 2 ^ bitwidth) (hb : bitwidth < 16) (he : w.end_ + bitwidth ≤ 32) :
    writerBits (write_bits w bitwidth bits)
      = writerBits w ++ natBits bits bitwidth ∧ WWF (write_bits w bitwidth bits) := by
  unfold write_bits
  have hv16 : bits % 65536 = bits := by
    have : bits < 65536 := Nat.lt_of_lt_of_le hv
      (by calc 2 ^ bitwidth ≤ 2 ^ 16 := Nat.pow_le_pow_right (by norm_num) (by omega)
            _ = 65536 := by norm_num)
    exact Nat.mod_eq_of_lt this
  have hor : w.buf ||| (bits <<< w.end_) < 2 ^ (w.end_ + bitwidth) := by
    have := Nat.append_lt hwf hv
    rwa [Nat.lor_comm] at this
  have hor32 : w.buf ||| (bits <<< w.end_) < 4294967296 :=
    Nat.lt_of_lt_of_le hor
      (by calc (2 : Nat) ^ (w.end_ + bitwidth) ≤ 2 ^ 32 :=
            Nat.pow_le_pow_right (by norm_num) he
          _ = 4294967296 := by norm_num)
  have hm : (w.buf ||| ((bits % 65536) <<< w.end_)) % 4294967296
      = w.buf ||| (bits <<< w.end_) := by
    rw [hv16]
    exact Nat.mod_eq_of_lt hor32
  constructor
  · rw [writerBits_flush_if_needed]
    unfold writerBits
    simp only [hm]
    rw [natBits_or_shift hwf, List.append_assoc]
  · refine WWF_flush_if_needed ?_
    unfold WWF
    simp only [hm]
    exact hor

end Libflate

namespace Libflate

/-- With at least `e` units of fuel the drain loop halts with zero buffered
bits, having appended exactly `ceil(e / 8)` bytes holding bits `0..` of
`buf`; so the fuel `BitWriter.flush` passes (`e` itself) is sufficient. -/
theorem flushLoop_fuel_sufficient :
    ∀ fuel buf e out, e ≤ fuel →
      (flushLoop fuel buf e out).2.1 = 0 ∧
      bitsOfBytes (flushLoop fuel buf e out).2.2
        = bitsOfBytes out ++ natBits buf (8 * ((e + 7) / 8)) := by
  intro fuel
  induction fuel with
  | zero =>
      intro buf e out he
      have he0 : e = 0 := by omega
      subst he0
      simp [flushLoop, natBits_zero_width]
  | succ n ih =>
      intro buf e out he
      by_cases hpos : 0 < e
      · have harith : 8 * ((e + 7) / 8) = 8 + 8 * ((e - 8 + 7) / 8) := by omega
        have hrec := ih (buf >>> 8) (e - 8) (out ++ [buf % 256]) (by omega)
        constructor
        · simp only [flushLoop, hpos, if_true]
          exact hrec.1
        · simp only [flushLoop, hpos, if_true]
          rw [hrec.2, bitsOfBytes_append, harith, natBits_add]
          simp [bitsOfBytes, byteBits, natBits_mod256, List.append_assoc]
      · simp [flushLoop, hpos, show e = 0 by omega, natBits_zero_width]

/-- Flushing a well-formed writer emits every buffered bit, zero-padding the
final partial byte, and leaves the buffer empty. -/
theorem flush_stream {w : BitWriter} (hwf : WWF w) :
    bitsOfBytes w.flush.output
      = writerBits w ++ List.replicate (8 * ((w.end_ + 7) / 8) - w.end_) false ∧
      w.flush.end_ = 0 := by
  have h := flushLoop_fuel_sufficient w.end_ w.buf w.end_ w.output (Nat.le_refl _)
  unfold BitWriter.flush
  refine ⟨?_, h.1⟩
  simp only
  rw [h.2]
  unfold writerBits
  rw [natBits_pad w.buf hwf (show w.end_ ≤ 8 * ((w.end_ + 7) / 8) by omega),
      List.append_assoc]

theorem writeAll_stream :
    ∀ (pairs : List (Nat × Nat)) (w : BitWriter), WWF w → w.end_ ≤ 15 →
      (∀ p ∈ pairs, p.1 < 16 ∧ p.2 < 2 ^ p.1) →
      writerBits (writeAll w pairs) = writerBits w ++ pairsBits pairs ∧
      WWF (writeAll w pairs) ∧ (writeAll w pairs).end_ ≤ 15 := by
  intro pairs
  induction pairs with
  | nil => intro w hwf he _; simp [writeAll, pairsBits, hwf, he]
  | cons p rest ih =>
      intro w hwf he hpre
      have hp := hpre p (List.mem_cons_self p rest)
      have hw := write_bits_stream hwf hp.2 hp.1 (by omega)
      have hend : (write_bits w p.1 p.2).end_ ≤ 15 := write_bits_end_le he hp.1
      have hrest := ih (write_bits w p.1 p.2) hw.2 hend
        (fun q hq => hpre q (List.mem_cons_of_mem p hq))
      refine ⟨?_, hrest.2.1, hrest.2.2⟩
      simp only [writeAll, pairsBits]
      rw [hrest.1, hw.1, List.append_assoc]

/-- The invariant behind claims C5 and C6: starting from a fresh writer,
after any sequence of precondition-respecting public operations at most 15
bits are buffered. -/
theorem applyOps_end_le :
    ∀ (ops : List WOp) (w : BitWriter), w.end_ ≤ 15 → (∀ op ∈ ops, op.pre) →
      (applyOps w ops).end_ ≤ 15 := by
  intro ops
  induction ops with
  | nil => intro w he _; simpa [applyOps]
  | cons op rest ih =>
      intro w he hpre
      have hop : (applyOp w op).end_ ≤ 15 := by
        cases op with
        | wbit b => exact write_bits_end_le he (by norm_num)
        | wbits width value =>
            exact write_bits_end_le he (hpre _ (List.mem_cons_self _ _))
        | wflush =>
            have := (flushLoop_fuel_sufficient w.end_ w.buf w.end_ w.output
              (Nat.le_refl _)).1
            simp only [applyOp, BitWriter.flush]
            omega
      exact ih (applyOp w op) hop (fun q hq => hpre q (List.mem_cons_of_mem op hq))

end Libflate

namespace Libflate

/-! Reader lemmas. -/

theorem length_readerStream (r : BitReader) :
    (readerStream r).length = (32 - r.offset) + 8 * r.input.length := by
  unfold readerStream bufferedBits
  rw [List.length_append, length_natBits, length_bitsOfBytes]

theorem fill_success {r : BitReader} {b : Nat} {rest : List Nat}
    (hin : r.input = b :: rest) (h8 : 8 ≤ r.offset) (h32 : r.offset ≤ 32)
    (hlr : r.last_read < 4294967296) :
    (fill_next_u8 r).2 = true ∧
    (fill_next_u8 r).1.input = rest ∧
    (fill_next_u8 r).1.offset = r.offset - 8 ∧
    (fill_next_u8 r).1.last_read < 4294967296 ∧
    readerStream (fill_next_u8 r).1 = readerStream r := by
  have hsr : r.last_read >>> 8 < 2 ^ 24 := by
    rw [Nat.shiftRight_eq_div_pow]
    rw [Nat.div_lt_iff_lt_mul (Nat.two_pow_pos 8), ← Nat.pow_add]
    exact hlr
  have hb : b % 256 < 2 ^ 8 := Nat.mod_lt _ (by norm_num)
  have hbnd : (r.last_read >>> 8) ||| ((b % 256) <<< 24) < 4294967296 := by
    have := Nat.append_lt hsr hb
    rw [Nat.lor_comm] at this
    exact this
  have hfill : fill_next_u8 r
      = (⟨rest, (r.last_read >>> 8) ||| ((b % 256) <<< 24), r.offset - 8⟩, true) := by
    unfold fill_next_u8
    simp only [hin]
  refine ⟨by rw [hfill], by rw [hfill], by rw [hfill], by rw [hfill]; exact hbnd, ?_⟩
  rw [hfill]
  show bufferedBits _ ++ bitsOfBytes rest = readerStream r
  have hbuf : bufferedBits
        (⟨rest, (r.last_read >>> 8) ||| ((b % 256) <<< 24), r.offset - 8⟩ : BitReader)
      = bufferedBits r ++ byteBits b := by
    unfold bufferedBits
    simp only
    have hlen : 32 - (r.offset - 8) = (32 - r.offset) + 8 := by omega
    rw [hlen]
    have hA : natBits (((r.last_read >>> 8) ||| ((b % 256) <<< 24)) >>> (r.offset - 8))
          ((32 - r.offset) + 8)
        = natBits ((r.last_read >>> r.offset) ||| ((b % 256) <<< (32 - r.offset)))
          ((32 - r.offset) + 8) := by
      refine natBits_congr _ fun i hi => ?_
      simp only [Nat.testBit_shiftRight, Nat.testBit_lor, Nat.testBit_shiftLeft]
      have e1 : 8 + (r.offset - 8 + i) = r.offset + i := by omega
      rw [e1]
      by_cases hc : r.offset - 8 + i ≥ 24
      · have hc' : i ≥ 32 - r.offset := by omega
        have e2 : r.offset - 8 + i - 24 = i - (32 - r.offset) := by omega
        simp [hc, hc', e2]
      · have hc' : ¬ (i ≥ 32 - r.offset) := by omega
        simp [hc, hc']
    rw [hA]
    have ha : r.last_read >>> r.offset < 2 ^ (32 - r.offset) := by
      rw [Nat.shiftRight_eq_div_pow]
      rw [Nat.div_lt_iff_lt_mul (Nat.two_pow_pos r.offset), ← Nat.pow_add]
      have e3 : 32 - r.offset + r.offset = 32 := by omega
      rw [e3]
      exact hlr
    rw [natBits_or_shift ha]
    unfold byteBits
    rw [natBits_mod256]
  rw [hbuf, List.append_assoc]
  unfold readerStream
  rw [hin]
  rfl

theorem peekLoop_sound :
    ∀ (fuel : Nat) (r : BitReader) (w : Nat), r.input.length < fuel →
      r.offset ≤ 32 → r.last_read < 4294967296 → w ≤ 16 →
      w ≤ (readerStream r).length →
      (peekLoop fuel r w).2 = true ∧
      readerStream (peekLoop fuel r w).1 = readerStream r ∧
      (peekLoop fuel r w).1.offset ≤ 32 ∧
      (peekLoop fuel r w).1.last_read < 4294967296 ∧
      w ≤ 32 - (peekLoop fuel r w).1.offset := by
  intro fuel
  induction fuel with
  | zero => intro r w hfuel _ _ _ _; omega
  | succ n ih =>
      intro r w hfuel h32 hlr h16 hlen
      by_cases hg : 32 - r.offset < w
      · have hsl := length_readerStream r
        cases hin : r.input with
        | nil =>
            exfalso
            rw [hin] at hsl
            simp at hsl
            omega
        | cons b rest =>
            have h8 : 8 ≤ r.offset := by omega
            have hf := fill_success hin h8 h32 hlr
            have hred : peekLoop (n + 1) r w = peekLoop n (fill_next_u8 r).1 w := by
              have hpair : fill_next_u8 r = ((fill_next_u8 r).1, true) := by
                rw [← hf.1]
              simp only [peekLoop, hg, if_true]
              rw [hpair]
            rw [hred]
            have hrec := ih (fill_next_u8 r).1 w
              (by rw [hf.2.1]; rw [hin] at hfuel; simpa using Nat.lt_of_succ_lt_succ hfuel)
              (by rw [hf.2.2.1]; omega) hf.2.2.2.1 h16
              (by rw [hf.2.2.2.2]; exact hlen)
            exact ⟨hrec.1, by rw [hrec.2.1, hf.2.2.2.2], hrec.2.2.1, hrec.2.2.2.1,
              hrec.2.2.2.2⟩
      · have hred : peekLoop (n + 1) r w = (r, true) := by
          simp only [peekLoop, hg, if_false]
        rw [hred]
        exact ⟨rfl, rfl, h32, hlr, by show w ≤ 32 - r.offset; omega⟩

end Libflate

namespace Libflate

theorem peek_bits_success {r : BitReader} {w : Nat}
    (h32 : r.offset ≤ 32) (hlr : r.last_read < 4294967296) (hw : w < 16)
    (hlen : w ≤ (readerStream r).length) :
    (peek_bits r w).1 = some (bitsToNat (List.take w (readerStream r))) ∧
    readerStream (peek_bits r w).2 = readerStream r ∧
    (peek_bits r w).2.offset ≤ 32 ∧
    (peek_bits r w).2.last_read < 4294967296 ∧
    w ≤ 32 - (peek_bits r w).2.offset := by
  have hp := peekLoop_sound (r.input.length + 1) r w (Nat.lt_succ_self _) h32 hlr
    (by omega) hlen
  rcases hq : peekLoop (r.input.length + 1) r w with ⟨st, fl⟩
  rw [hq] at hp
  simp only at hp
  have hfl : fl = true := hp.1
  subst hfl
  have hpk : peek_bits r w
      = (some (((st.last_read >>> st.offset) % 65536) &&& (2 ^ (w % 16) - 1)), st) := by
    unfold peek_bits
    rw [hq]
  rw [hpk]
  have hwm : w % 16 = w := Nat.mod_eq_of_lt hw
  have hval : ((st.last_read >>> st.offset) % 65536) &&& (2 ^ (w % 16) - 1)
      = bitsToNat (List.take w (readerStream r)) := by
    rw [hwm]
    have h1 : ((st.last_read >>> st.offset) % 65536) &&& (2 ^ w - 1)
        = ((st.last_read >>> st.offset) % 65536) % 2 ^ w :=
      Nat.and_pow_two_sub_one_eq_mod _ w
    have h2 : ((st.last_read >>> st.offset) % 65536) % 2 ^ w
        = (st.last_read >>> st.offset) % 2 ^ w := by
      have : (2 : Nat) ^ w ∣ 65536 := by
        have : (65536 : Nat) = 2 ^ 16 := by norm_num
        rw [this]
        exact Nat.pow_dvd_pow 2 (by omega)
      exact Nat.mod_mod_of_dvd _ this
    rw [h1, h2, ← bitsToNat_natBits]
    congr 1
    rw [← hp.2.1]
    unfold readerStream
    rw [List.take_append_of_le_length (by rw [show (bufferedBits st).length
      = 32 - st.offset from by unfold bufferedBits; rw [length_natBits]]; omega)]
    unfold bufferedBits
    rw [take_natBits _ (by omega)]
  rw [hval]
  exact ⟨rfl, hp.2.1, hp.2.2.1, hp.2.2.2.1, hp.2.2.2.2⟩

theorem skip_stream {r : BitReader} {w : Nat} (h : w ≤ 32 - r.offset) :
    readerStream (skip_bits r w) = List.drop w (readerStream r) := by
  unfold skip_bits readerStream bufferedBits
  simp only
  rw [List.drop_append_of_le_length (by rw [length_natBits]; omega)]
  rw [drop_natBits _ (by omega)]
  rw [← Nat.shiftRight_add]
  have e : 32 - r.offset - w = 32 - (r.offset + w) := by omega
  rw [e]

theorem read_bits_success {r : BitReader} {w : Nat}
    (h32 : r.offset ≤ 32) (hlr : r.last_read < 4294967296) (hw : w < 16)
    (hlen : w ≤ (readerStream r).length) :
    (read_bits r w).1 = some (bitsToNat (List.take w (readerStream r))) ∧
    readerStream (read_bits r w).2 = List.drop w (readerStream r) ∧
    (read_bits r w).2.offset ≤ 32 ∧
    (read_bits r w).2.last_read < 4294967296 := by
  have hp := peek_bits_success h32 hlr hw hlen
  rcases hq : peek_bits r w with ⟨ov, st⟩
  rw [hq] at hp
  simp only at hp
  rcases hp with ⟨hv, hs, ho, hl, hsk⟩
  have hrd : read_bits r w = (ov, skip_bits st w) := by
    unfold read_bits
    rw [hq, hv]
  rw [hrd]
  refine ⟨hv, ?_, ?_, hl⟩
  · rw [skip_stream hsk, hs]
  · show st.offset + w ≤ 32
    omega

theorem readAll_sound :
    ∀ (pairs : List (Nat × Nat)) (r : BitReader) (tail : List Bool),
      r.offset ≤ 32 → r.last_read < 4294967296 →
      (∀ p ∈ pairs, p.1 < 16 ∧ p.2 < 2 ^ p.1) →
      readerStream r = pairsBits pairs ++ tail →
      readAll r (pairs.map Prod.fst) = some (pairs.map Prod.snd) := by
  intro pairs
  induction pairs with
  | nil => intro r tail _ _ _ _; simp [readAll]
  | cons p rest ih =>
      intro r tail h32 hlr hpre hs
      have hp := hpre p (List.mem_cons_self p rest)
      have hs' : readerStream r = natBits p.2 p.1 ++ (pairsBits rest ++ tail) := by
        rw [hs]
        simp [pairsBits, List.append_assoc]
      have hlen : p.1 ≤ (readerStream r).length := by
        rw [hs', List.length_append, length_natBits]
        omega
      have hr := read_bits_success h32 hlr hp.1 hlen
      have htake : List.take p.1 (readerStream r) = natBits p.2 p.1 := by
        rw [hs']
        exact List.take_left' (length_natBits _ _)
      have hdrop : List.drop p.1 (readerStream r) = pairsBits rest ++ tail := by
        rw [hs']
        exact List.drop_left' (length_natBits _ _)
      have hval : bitsToNat (List.take p.1 (readerStream r)) = p.2 := by
        rw [htake, bitsToNat_natBits]
        exact Nat.mod_eq_of_lt hp.2
      rcases hq : read_bits r p.1 with ⟨ov, st⟩
      rw [hq] at hr
      simp only at hr
      have hov : ov = some p.2 := by rw [hr.1, hval]
      have hrec := ih st (tail) hr.2.2.1 hr.2.2.2
        (fun q hq' => hpre q (List.mem_cons_of_mem p hq'))
        (by rw [hr.2.1, hdrop])
      show readAll r (p.1 :: rest.map Prod.fst) = some (p.2 :: rest.map Prod.snd)
      unfold readAll
      rw [hq, hov]
      simp [hrec]

end Libflate

namespace Libflate

theorem readerStream_new (l : List Nat) :
    readerStream (BitReader.new l) = bitsOfBytes l := by
  unfold readerStream bufferedBits BitReader.new
  simp [natBits_zero_width]

theorem encode_spec (pairs : List (Nat × Nat))
    (hpre : ∀ p ∈ pairs, p.1 < 16 ∧ p.2 < 2 ^ p.1) :
    bitsOfBytes (encode pairs)
      = pairsBits pairs
        ++ List.replicate
            (8 * (((writeAll BitWriter.new pairs).end_ + 7) / 8)
              - (writeAll BitWriter.new pairs).end_) false := by
  have hnew : WWF BitWriter.new := by decide
  have hw := writeAll_stream pairs BitWriter.new hnew (by decide) hpre
  have hf := flush_stream hw.2.1
  unfold encode
  rw [hf.1, hw.1]
  have hempty : writerBits BitWriter.new = [] := by decide
  rw [hempty, List.nil_append]

/-- Claim C1, amended: the original claim admits arbitrary `u16` values and
asks that reading return each value masked to its width; it is false because
`write_bits` ORs the whole value into the accumulator without masking, so
value bits above `width-1` corrupt later fields (see `C1_counterexample`).
With each value already reduced to its width (`value < 2^width`), writing a
sequence of `(width, value)` pairs with widths in `[1, 16)` on a fresh
writer, flushing, and reading the same widths back in order via `read_bits`
on a fresh reader over the emitted bytes returns exactly the values. -/
theorem C1_round_trip (pairs : List (Nat × Nat))
    (hpre : ∀ p ∈ pairs, 1 ≤ p.1 ∧ p.1 < 16 ∧ p.2 < 2 ^ p.1) :
    readAll (BitReader.new (encode pairs)) (pairs.map Prod.fst)
      = some (pairs.map Prod.snd) := by
  have hpre' : ∀ p ∈ pairs, p.1 < 16 ∧ p.2 < 2 ^ p.1 :=
    fun p hp => ⟨(hpre p hp).2.1, (hpre p hp).2.2⟩
  refine readAll_sound pairs (BitReader.new (encode pairs))
    (List.replicate
      (8 * (((writeAll BitWriter.new pairs).end_ + 7) / 8)
        - (writeAll BitWriter.new pairs).end_) false)
    (by show (32 : Nat) ≤ 32; omega)
    (by show (0 : Nat) < 4294967296; omega) hpre' ?_
  rw [readerStream_new, encode_spec pairs hpre']

/-- Claim C1 witness: a concrete three-field round trip. -/
theorem C1_round_trip_witness :
    (∀ p ∈ ([(3, 5), (11, 1370), (1, 1)] : List (Nat × Nat)),
      1 ≤ p.1 ∧ p.1 < 16 ∧ p.2 < 2 ^ p.1) ∧
    readAll (BitReader.new (encode [(3, 5), (11, 1370), (1, 1)]))
        (([(3, 5), (11, 1370), (1, 1)] : List (Nat × Nat)).map Prod.fst)
      = some (([(3, 5), (11, 1370), (1, 1)] : List (Nat × Nat)).map Prod.snd) :=
  ⟨by decide, C1_round_trip _ (by decide)⟩

/-- Claim C1 counterexample: writing `(1, 2)` then `(1, 0)` and reading the
widths back does not return the values masked to their widths (`[0, 0]`);
bit 1 of the unmasked value 2 leaks into the second field, giving `[0, 1]`. -/
theorem C1_counterexample :
    readAll (BitReader.new (encode [(1, 2), (1, 0)]))
        (([(1, 2), (1, 0)] : List (Nat × Nat)).map Prod.fst)
      ≠ some (([(1, 2), (1, 0)] : List (Nat × Nat)).map (fun p => p.2 % 2 ^ p.1)) := by
  decide

/-- Claim C2, amended: the original claim is false for values with nonzero
bits above `width-1` (see `C2_counterexample`): `write_bits` ORs the whole
value into the accumulator, so those bits do enter it.  For a writer whose
accumulator holds only its `filled` buffered bits and a value with
`value < 2^width`, `write_bits` appends exactly the low `width` bits of the
value, LSB first, immediately above the buffered bits, leaving the already
buffered bits unchanged. -/
theorem C2_write_bits_appends {w : BitWriter} {bitwidth bits : Nat}
    (hwf : WWF w) (hb : bitwidth < 16) (he : w.end_ + bitwidth ≤ 32)
    (hv : bits < 2 ^ bitwidth) :
    writerBits (write_bits w bitwidth bits) = writerBits w ++ natBits bits bitwidth :=
  (write_bits_stream hwf hv hb he).1

/-- Claim C2 witness: appending two bits above three buffered bits. -/
theorem C2_write_bits_appends_witness :
    WWF (⟨5, 3, [7]⟩ : BitWriter) ∧ (2 : Nat) < 16 ∧ (3 : Nat) + 2 ≤ 32 ∧
    (2 : Nat) < 2 ^ 2 ∧
    writerBits (write_bits ⟨5, 3, [7]⟩ 2 2) = writerBits ⟨5, 3, [7]⟩ ++ natBits 2 2 :=
  ⟨by decide, by decide, by decide, by decide,
    C2_write_bits_appends (by decide) (by decide) (by decide) (by decide)⟩

/-- Claim C2 counterexample: writing value 2 at width 1 is not the same as
writing its low 1 bit (the value masked to the width): bit 1 of the value
enters the accumulator. -/
theorem C2_counterexample :
    write_bits BitWriter.new 1 2 ≠ write_bits BitWriter.new 1 (2 % 2 ^ 1) := by
  decide

/-- Claim C5, amended: the original bound of 7 buffered bits is false (see
`C5_counterexample`); the writer only drains once 16 bits accumulate, so
after any precondition-respecting sequence of public operations on a fresh
writer up to 15 bits remain buffered, and omitting the final flush loses at
most 15 bits (a full byte plus a partial byte), not at most 7. -/
theorem C5_unflushed_bound (ops : List WOp) (hpre : ∀ op ∈ ops, op.pre) :
    (applyOps BitWriter.new ops).end_ ≤ 15 :=
  applyOps_end_le ops BitWriter.new (by decide) hpre

/-- Claim C5 witness: a short precondition-respecting operation sequence. -/
theorem C5_unflushed_bound_witness :
    (∀ op ∈ [WOp.wbit true, WOp.wbits 3 5], op.pre) ∧
    (applyOps BitWriter.new [WOp.wbit true, WOp.wbits 3 5]).end_ ≤ 15 :=
  ⟨by decide, C5_unflushed_bound _ (by decide)⟩

/-- Claim C5 counterexample: a single precondition-respecting
`write_bits(15, 0)` on a fresh writer leaves 15 bits buffered, more than 7. -/
theorem C5_counterexample :
    (∀ op ∈ [WOp.wbits 15 0], op.pre) ∧
    ¬ (applyOps BitWriter.new [WOp.wbits 15 0]).end_ ≤ 7 := by
  decide

/-- Claim C6: after any sequence of public operations on a fresh writer whose
preconditions hold (each write has width < 16; `filled + width ≤ 32` then
holds automatically since at most 15 bits stay buffered), the buffered bit
count never exceeds 31 — the writer drains two little-endian bytes whenever
it reaches 16 or more bits.  Every prefix of such a sequence is itself such
a sequence, so this bounds `filled` after every operation. -/
theorem C6_filled_le_31 (ops : List WOp) (hpre : ∀ op ∈ ops, op.pre) :
    (applyOps BitWriter.new ops).end_ ≤ 31 :=
  Nat.le_trans (applyOps_end_le ops BitWriter.new (by decide) hpre) (by norm_num)

/-- Claim C6 witness: a sequence crossing the 16-bit drain threshold. -/
theorem C6_filled_le_31_witness :
    (∀ op ∈ [WOp.wbits 12 100, WOp.wbits 9 37, WOp.wflush], op.pre) ∧
    (applyOps BitWriter.new [WOp.wbits 12 100, WOp.wbits 9 37, WOp.wflush]).end_ ≤ 31 :=
  ⟨by decide, C6_filled_le_31 _ (by decide)⟩

/-- Claim C7: the crate's documented bit-order example: writing bit `true`,
bits `0b010` at width 3, bits `0b10101011010` at width 11, flushing, writing
bit `true`, flushing again emits exactly `[0b10100101, 0b01010101, 0b1]`. -/
theorem C7_bit_order :
    (write_bit ((write_bits (write_bits (write_bit BitWriter.new true) 3 0b010)
        11 0b10101011010).flush) true).flush.output
      = [0b10100101, 0b01010101, 0b00000001] := by
  decide

end Libflate

namespace Libflate

theorem fill_next_u8_offset (r : BitReader) :
    (fill_next_u8 r).1.offset = r.offset - 8 := by
  unfold fill_next_u8
  rcases r.input with _ | ⟨b, rest⟩ <;> simp

theorem peekLoop_failure :
    ∀ (fuel : Nat) (r : BitReader) (w : Nat), r.offset ≤ 32 → w ≤ 16 →
      (peekLoop fuel r w).2 = false →
      (peekLoop fuel r w).1.input = [] ∧
      (peekLoop fuel r w).1.offset + 8 ≤ r.offset := by
  intro fuel
  induction fuel with
  | zero => intro r w _ _ hfalse; simp [peekLoop] at hfalse
  | succ n ih =>
      intro r w h32 h16 hfalse
      by_cases hg : 32 - r.offset < w
      · have h8 : 8 ≤ r.offset := by omega
        cases hin : r.input with
        | nil =>
            have hfill : fill_next_u8 r
                = ({ r with offset := r.offset - 8, last_read := r.last_read >>> 8 },
                    false) := by
              unfold fill_next_u8
              simp only [hin]
            have hred : peekLoop (n + 1) r w
                = ({ r with offset := r.offset - 8, last_read := r.last_read >>> 8 },
                    false) := by
              simp only [peekLoop, hg, if_true, hfill]
            rw [hred]
            exact ⟨hin, by show r.offset - 8 + 8 ≤ r.offset; omega⟩
        | cons b rest =>
            have hfill : fill_next_u8 r
                = (⟨rest, (r.last_read >>> 8) ||| ((b % 256) <<< 24), r.offset - 8⟩,
                    true) := by
              unfold fill_next_u8
              simp only [hin]
            have hred : peekLoop (n + 1) r w
                = peekLoop n
                    ⟨rest, (r.last_read >>> 8) ||| ((b % 256) <<< 24), r.offset - 8⟩ w := by
              simp only [peekLoop, hg, if_true, hfill]
            rw [hred] at hfalse ⊢
            have hrec := ih ⟨rest, (r.last_read >>> 8) ||| ((b % 256) <<< 24),
              r.offset - 8⟩ w (by show r.offset - 8 ≤ 32; omega) h16 hfalse
            refine ⟨hrec.1, ?_⟩
            have h2 := hrec.2
            have hd : (⟨rest, (r.last_read >>> 8) ||| ((b % 256) <<< 24),
                r.offset - 8⟩ : BitReader).offset = r.offset - 8 := rfl
            rw [hd] at h2
            omega
      · have hred : peekLoop (n + 1) r w = (r, true) := by
          simp only [peekLoop, hg, if_false]
        rw [hred] at hfalse
        simp at hfalse

/-- Claim C3, amended: the original claim is false (see `C3_counterexample`):
`fill_next_u8` decrements `offset` and shifts the accumulator before its
fallible byte read, so a failed read does change the reader's logical state.
What holds: when `peek_bits` fails with end-of-stream the failing call
returns no bits value, the source has been fully consumed, and the offset
has decreased by at least 8 — each attempted fill buffers 8 zero bits in
place of the missing data, which is why an immediately repeated identical
call on the exhausted source can then succeed returning those zeros. -/
theorem C3_eof_changes_state {r : BitReader} {w : Nat}
    (h32 : r.offset ≤ 32) (h16 : w ≤ 16)
    (hfail : (peek_bits r w).1 = none) :
    (peek_bits r w).2.input = [] ∧ (peek_bits r w).2.offset + 8 ≤ r.offset := by
  have hloop := peekLoop_failure (r.input.length + 1) r w h32 h16
  rcases hq : peekLoop (r.input.length + 1) r w with ⟨st, fl⟩
  rw [hq] at hloop
  simp only at hloop
  have hpk : peek_bits r w = (if fl then
      (some (((st.last_read >>> st.offset) % 65536) &&& (2 ^ (w % 16) - 1)), st)
    else (none, st)) := by
    unfold peek_bits
    rw [hq]
    cases fl <;> rfl
  cases fl with
  | true => rw [hpk] at hfail; simp at hfail
  | false =>
      rw [hpk] at hfail ⊢
      exact hloop rfl

/-- Claim C3 witness: an 8-bit peek on an empty source fails and leaves the
offset decreased by 8. -/
theorem C3_eof_changes_state_witness :
    (BitReader.new []).offset ≤ 32 ∧ (8 : Nat) ≤ 16 ∧
    (peek_bits (BitReader.new []) 8).1 = none ∧
    ((peek_bits (BitReader.new []) 8).2.input = [] ∧
      (peek_bits (BitReader.new []) 8).2.offset + 8 ≤ (BitReader.new []).offset) :=
  ⟨by decide, by decide, by decide,
    C3_eof_changes_state (by decide) (by decide) (by decide)⟩

/-- Claim C3 counterexample: on an exhausted source a failed `read_bits(8)`
is not repeatable — the identical second call succeeds and returns 0,
because the failed fill left 8 zero bits buffered. -/
theorem C3_counterexample :
    (read_bits (BitReader.new []) 8).1 = none ∧
    (read_bits ((read_bits (BitReader.new []) 8).2) 8).1 = some 0 := by
  decide

/-- Claim C4 (code bug): `read_bits(16)` does not return the next 16 bits.
The mask `(1u16 << bitwidth) - 1` overflows at `bitwidth = 16` (panic in a
debug build; shift amount masked to 0 in release, giving mask 0), so on the
all-ones source the call returns 0 rather than `0xFFFF`, while still
consuming 16 bits. -/
theorem C4_width16_mask_overflow :
    (read_bits (BitReader.new [255, 255]) 16).1 = some 0 ∧
    (read_bits (BitReader.new [255, 255]) 16).2.offset = 32 := by
  decide

/-- Claim C8: on every reachable refill, the defensive `offset -= 8` in
`fill_next_u8` never underflows: for any reader state with `offset ≤ 32`
(the `u8` range the type and `skip_bits`'s precondition maintain) and any
`bitwidth ≤ 16`, the refill loop run with underflow-checked subtraction
(`none` exactly when some fill starts with `offset < 8`) computes the same
result as the unchecked loop — the guard `32 - offset < bitwidth` forces
`offset ≥ 17` at every fill. -/
theorem C8_no_underflow :
    ∀ (fuel : Nat) (r : BitReader) (w : Nat), r.offset ≤ 32 → w ≤ 16 →
      peekLoopChecked fuel r w = some (peekLoop fuel r w) := by
  intro fuel
  induction fuel with
  | zero => intro r w _ _; rfl
  | succ n ih =>
      intro r w h32 h16
      by_cases hg : 32 - r.offset < w
      · have h8 : ¬ r.offset < 8 := by omega
        have hfc : fill_next_u8_checked r = some (fill_next_u8 r) := by
          unfold fill_next_u8_checked
          rw [if_neg h8]
        rcases hfr : fill_next_u8 r with ⟨st, flag⟩
        have hst : st.offset ≤ 32 := by
          have := fill_next_u8_offset r
          rw [hfr] at this
          simp only at this
          omega
        cases flag with
        | true =>
            have h1 : peekLoopChecked (n + 1) r w = peekLoopChecked n st w := by
              simp only [peekLoopChecked, hg, if_true, hfc, hfr]
            have h2 : peekLoop (n + 1) r w = peekLoop n st w := by
              simp only [peekLoop, hg, if_true, hfr]
            rw [h1, h2]
            exact ih st w hst h16
        | false =>
            have h1 : peekLoopChecked (n + 1) r w = some (st, false) := by
              simp only [peekLoopChecked, hg, if_true, hfc, hfr]
            have h2 : peekLoop (n + 1) r w = (st, false) := by
              simp only [peekLoop, hg, if_true, hfr]
            rw [h1, h2]
      · simp only [peekLoopChecked, peekLoop, hg, if_false]

/-- Claim C8 witness: one refill attempt on a fresh empty reader. -/
theorem C8_no_underflow_witness :
    (BitReader.new []).offset ≤ 32 ∧ (8 : Nat) ≤ 16 ∧
    peekLoopChecked 1 (BitReader.new []) 8 = some (peekLoop 1 (BitReader.new []) 8) :=
  ⟨by decide, by decide, C8_no_underflow 1 (BitReader.new []) 8 (by decide) (by decide)⟩

end Libflate

namespace Libflate

/-- Two reader states with the same source and offset whose accumulators
agree on every bit at or above the offset stay in lock step through the
refill loop: stale accumulator bits strictly below the offset never
influence guards, fills, or results. -/
theorem peekLoop_bisim :
    ∀ (fuel : Nat) (w : Nat) (r1 r2 : BitReader),
      r1.input = r2.input → r1.offset = r2.offset →
      (∀ j, r1.offset ≤ j → r1.last_read.testBit j = r2.last_read.testBit j) →
      (peekLoop fuel r1 w).2 = (peekLoop fuel r2 w).2 ∧
      (peekLoop fuel r1 w).1.input = (peekLoop fuel r2 w).1.input ∧
      (peekLoop fuel r1 w).1.offset = (peekLoop fuel r2 w).1.offset ∧
      (∀ j, (peekLoop fuel r1 w).1.offset ≤ j →
        (peekLoop fuel r1 w).1.last_read.testBit j
          = (peekLoop fuel r2 w).1.last_read.testBit j) := by
  intro fuel
  induction fuel with
  | zero =>
      intro w r1 r2 hin hoff hbits
      exact ⟨rfl, hin, hoff, hbits⟩
  | succ n ih =>
      intro w r1 r2 hin hoff hbits
      by_cases hg : 32 - r1.offset < w
      · have hg2 : 32 - r2.offset < w := by rw [← hoff]; exact hg
        have hstep : ∀ j, r1.offset - 8 ≤ j →
            (r1.last_read >>> 8).testBit j = (r2.last_read >>> 8).testBit j := by
          intro j hj
          rw [Nat.testBit_shiftRight, Nat.testBit_shiftRight]
          exact hbits (8 + j) (by omega)
        cases hin1 : r1.input with
        | nil =>
            have hin2 : r2.input = [] := by rw [← hin]; exact hin1
            have hf1 : fill_next_u8 r1
                = ({ r1 with offset := r1.offset - 8, last_read := r1.last_read >>> 8 },
                    false) := by
              unfold fill_next_u8
              simp only [hin1]
            have hf2 : fill_next_u8 r2
                = ({ r2 with offset := r2.offset - 8, last_read := r2.last_read >>> 8 },
                    false) := by
              unfold fill_next_u8
              simp only [hin2]
            have hred1 : peekLoop (n + 1) r1 w
                = ({ r1 with offset := r1.offset - 8, last_read := r1.last_read >>> 8 },
                    false) := by
              simp only [peekLoop, hg, if_true, hf1]
            have hred2 : peekLoop (n + 1) r2 w
                = ({ r2 with offset := r2.offset - 8, last_read := r2.last_read >>> 8 },
                    false) := by
              simp only [peekLoop, hg2, if_true, hf2]
            rw [hred1, hred2]
            refine ⟨rfl, ?_, ?_, ?_⟩
            · show r1.input = r2.input; exact hin
            · show r1.offset - 8 = r2.offset - 8; omega
            · intro j hj
              exact hstep j hj
        | cons b rest =>
            have hin2 : r2.input = b :: rest := by rw [← hin]; exact hin1
            have hf1 : fill_next_u8 r1
                = (⟨rest, (r1.last_read >>> 8) ||| ((b % 256) <<< 24),
                    r1.offset - 8⟩, true) := by
              unfold fill_next_u8
              simp only [hin1]
            have hf2 : fill_next_u8 r2
                = (⟨rest, (r2.last_read >>> 8) ||| ((b % 256) <<< 24),
                    r2.offset - 8⟩, true) := by
              unfold fill_next_u8
              simp only [hin2]
            have hred1 : peekLoop (n + 1) r1 w
                = peekLoop n
                    ⟨rest, (r1.last_read >>> 8) ||| ((b % 256) <<< 24),
                      r1.offset - 8⟩ w := by
              simp only [peekLoop, hg, if_true, hf1]
            have hred2 : peekLoop (n + 1) r2 w
                = peekLoop n
                    ⟨rest, (r2.last_read >>> 8) ||| ((b % 256) <<< 24),
                      r2.offset - 8⟩ w := by
              simp only [peekLoop, hg2, if_true, hf2]
            rw [hred1, hred2]
            refine ih w _ _ rfl (by show r1.offset - 8 = r2.offset - 8; omega) ?_
            intro j hj
            show ((r1.last_read >>> 8) ||| ((b % 256) <<< 24)).testBit j
              = ((r2.last_read >>> 8) ||| ((b % 256) <<< 24)).testBit j
            rw [Nat.testBit_lor, Nat.testBit_lor]
            have hj' : r1.offset - 8 ≤ j := hj
            rw [hstep j hj']
      · have hg2 : ¬ 32 - r2.offset < w := by rw [← hoff]; exact hg
        have hred1 : peekLoop (n + 1) r1 w = (r1, true) := by
          simp only [peekLoop, hg, if_false]
        have hred2 : peekLoop (n + 1) r2 w = (r2, true) := by
          simp only [peekLoop, hg2, if_false]
        rw [hred1, hred2]
        exact ⟨rfl, hin, hoff, hbits⟩

/-- Claim C9: `reset` leaves zero bits buffered (`32 - offset = 0`), touches
neither the source nor the accumulator, and the next peek behaves exactly as
on a freshly constructed reader over the same remaining source bytes: same
returned value (or failure), same bytes consumed, same final offset. -/
theorem C9_reset_discards_buffer (r : BitReader) (w : Nat)
    (hlr : r.last_read < 4294967296) :
    32 - r.reset.offset = 0 ∧
    r.reset.input = r.input ∧
    (peek_bits r.reset w).1 = (peek_bits (BitReader.new r.input) w).1 ∧
    (peek_bits r.reset w).2.input = (peek_bits (BitReader.new r.input) w).2.input ∧
    (peek_bits r.reset w).2.offset = (peek_bits (BitReader.new r.input) w).2.offset := by
  have hbits : ∀ j, r.reset.offset ≤ j →
      r.reset.last_read.testBit j = (BitReader.new r.input).last_read.testBit j := by
    intro j hj
    have hj32 : 32 ≤ j := hj
    have h1 : r.last_read.testBit j = false :=
      Nat.testBit_eq_false_of_lt (Nat.lt_of_lt_of_le hlr
        (by calc (4294967296 : Nat) = 2 ^ 32 := by norm_num
              _ ≤ 2 ^ j := Nat.pow_le_pow_right (by norm_num) hj32))
    show r.last_read.testBit j = Nat.testBit 0 j
    rw [h1, Nat.zero_testBit]
  have hb := peekLoop_bisim (r.input.length + 1) w r.reset (BitReader.new r.input)
    rfl rfl hbits
  refine ⟨by show 32 - 32 = 0; rfl, rfl, ?_⟩
  rcases hq1 : peekLoop (r.input.length + 1) r.reset w with ⟨st1, fl1⟩
  rcases hq2 : peekLoop (r.input.length + 1) (BitReader.new r.input) w with ⟨st2, fl2⟩
  rw [hq1, hq2] at hb
  simp only at hb
  have hfl : fl1 = fl2 := hb.1
  have hval : (st1.last_read >>> st1.offset) = (st2.last_read >>> st2.offset) := by
    refine Nat.eq_of_testBit_eq fun i => ?_
    rw [Nat.testBit_shiftRight, Nat.testBit_shiftRight, hb.2.2.1]
    exact hb.2.2.2 (st2.offset + i) (by rw [hb.2.2.1]; omega)
  subst hfl
  cases fl1 with
  | true =>
      have hpk1 : peek_bits r.reset w
          = (some (((st1.last_read >>> st1.offset) % 65536) &&& (2 ^ (w % 16) - 1)),
              st1) := by
        unfold peek_bits
        rw [show r.reset.input.length = r.input.length from rfl, hq1]
      have hpk2 : peek_bits (BitReader.new r.input) w
          = (some (((st2.last_read >>> st2.offset) % 65536) &&& (2 ^ (w % 16) - 1)),
              st2) := by
        unfold peek_bits
        rw [show (BitReader.new r.input).input.length = r.input.length from rfl, hq2]
      rw [hpk1, hpk2, hval]
      exact ⟨rfl, hb.2.1, hb.2.2.1⟩
  | false =>
      have hpk1 : peek_bits r.reset w = (none, st1) := by
        unfold peek_bits
        rw [show r.reset.input.length = r.input.length from rfl, hq1]
      have hpk2 : peek_bits (BitReader.new r.input) w = (none, st2) := by
        unfold peek_bits
        rw [show (BitReader.new r.input).input.length = r.input.length from rfl, hq2]
      rw [hpk1, hpk2]
      exact ⟨rfl, hb.2.1, hb.2.2.1⟩

/-- Claim C9 witness: a reader mid-stream with stale buffered bits. -/
theorem C9_reset_discards_buffer_witness :
    (⟨[9], 123456, 7⟩ : BitReader).last_read < 4294967296 ∧
    (32 - (⟨[9], 123456, 7⟩ : BitReader).reset.offset = 0 ∧
      (⟨[9], 123456, 7⟩ : BitReader).reset.input = (⟨[9], 123456, 7⟩ : BitReader).input ∧
      (peek_bits (⟨[9], 123456, 7⟩ : BitReader).reset 3).1
        = (peek_bits (BitReader.new (⟨[9], 123456, 7⟩ : BitReader).input) 3).1 ∧
      (peek_bits (⟨[9], 123456, 7⟩ : BitReader).reset 3).2.input
        = (peek_bits (BitReader.new (⟨[9], 123456, 7⟩ : BitReader).input) 3).2.input ∧
      (peek_bits (⟨[9], 123456, 7⟩ : BitReader).reset 3).2.offset
        = (peek_bits (BitReader.new (⟨[9], 123456, 7⟩ : BitReader).input) 3).2.offset) :=
  ⟨by decide, C9_reset_discards_buffer ⟨[9], 123456, 7⟩ 3 (by decide)⟩

end Libflate

namespace Libflate

theorem peekLoop_input_mono :
    ∀ (fuel : Nat) (r : BitReader) (w : Nat),
      (peekLoop fuel r w).1.input.length ≤ r.input.length := by
  intro fuel
  induction fuel with
  | zero => intro r w; exact Nat.le_refl _
  | succ n ih =>
      intro r w
      by_cases hg : 32 - r.offset < w
      · cases hin : r.input with
        | nil =>
            have hred : peekLoop (n + 1) r w
                = ({ r with offset := r.offset - 8, last_read := r.last_read >>> 8 },
                    false) := by
              have hfill : fill_next_u8 r
                  = ({ r with offset := r.offset - 8, last_read := r.last_read >>> 8 },
                      false) := by
                unfold fill_next_u8
                simp only [hin]
              simp only [peekLoop, hg, if_true, hfill]
            rw [hred]
            simp [hin]
        | cons b rest =>
            have hred : peekLoop (n + 1) r w
                = peekLoop n
                    ⟨rest, (r.last_read >>> 8) ||| ((b % 256) <<< 24), r.offset - 8⟩ w := by
              have hfill : fill_next_u8 r
                  = (⟨rest, (r.last_read >>> 8) ||| ((b % 256) <<< 24), r.offset - 8⟩,
                      true) := by
                unfold fill_next_u8
                simp only [hin]
              simp only [peekLoop, hg, if_true, hfill]
            rw [hred]
            calc (peekLoop n
                    ⟨rest, (r.last_read >>> 8) ||| ((b % 256) <<< 24), r.offset - 8⟩
                    w).1.input.length
                ≤ rest.length := ih _ w
              _ ≤ (b :: rest).length := by simp
      · have hred : peekLoop (n + 1) r w = (r, true) := by
          simp only [peekLoop, hg, if_false]
        rw [hred]

/-- Claim C10: constructing a `BitReader` performs no read on the source and
starts with an empty bit buffer (offset 32, so zero buffered bits); hence
any first `peek_bits` or `read_bits` of width at least 1 that returns a
value has pulled at least one byte from the source. -/
theorem C10_lazy_construction (l : List Nat) (w : Nat) (hw1 : 1 ≤ w) :
    (BitReader.new l).input = l ∧
    32 - (BitReader.new l).offset = 0 ∧
    (∀ v st, peek_bits (BitReader.new l) w = (some v, st) → st.input.length < l.length) ∧
    (∀ v st, read_bits (BitReader.new l) w = (some v, st) → st.input.length < l.length) := by
  have hpeek : ∀ v st, peek_bits (BitReader.new l) w = (some v, st) →
      st.input.length < l.length := by
    intro v st h
    have hg : 32 - (BitReader.new l).offset < w := by show 32 - 32 < w; omega
    cases l with
    | nil =>
        exfalso
        have hred : peekLoop ((BitReader.new ([] : List Nat)).input.length + 1)
            (BitReader.new []) w = (⟨[], 0, 24⟩, false) := by
          show peekLoop 1 (BitReader.new []) w = (⟨[], 0, 24⟩, false)
          simp only [peekLoop, hg, if_true]
          rfl
        unfold peek_bits at h
        rw [hred] at h
        simp at h
    | cons b rest =>
        have hfill : fill_next_u8 (BitReader.new (b :: rest))
            = (⟨rest, (b % 256) <<< 24, 24⟩, true) := by
          unfold fill_next_u8 BitReader.new
          simp
        have hred : peekLoop ((BitReader.new (b :: rest)).input.length + 1)
            (BitReader.new (b :: rest)) w
            = peekLoop (rest.length + 1) ⟨rest, (b % 256) <<< 24, 24⟩ w := by
          show peekLoop (rest.length + 1 + 1) (BitReader.new (b :: rest)) w = _
          simp only [peekLoop, hg, if_true, hfill]
        have hmono := peekLoop_input_mono (rest.length + 1)
          ⟨rest, (b % 256) <<< 24, 24⟩ w
        unfold peek_bits at h
        rw [hred] at h
        rcases hq : peekLoop (rest.length + 1) ⟨rest, (b % 256) <<< 24, 24⟩ w
          with ⟨st', fl⟩
        rw [hq] at h hmono
        cases fl with
        | true =>
            have hst : st = st' := by
              simp only at h
              exact ((Prod.mk.injEq _ _ _ _).mp h).2.symm
            rw [hst]
            simp only at hmono
            simp only [List.length_cons]
            omega
        | false => simp at h
  refine ⟨rfl, rfl, hpeek, ?_⟩
  intro v st h
  unfold read_bits at h
  rcases hq : peek_bits (BitReader.new l) w with ⟨ov, st'⟩
  rw [hq] at h
  cases ov with
  | none => simp at h
  | some v' =>
      simp only at h
      have hpair := (Prod.mk.injEq _ _ _ _).mp h
      have hst : st = skip_bits st' w := hpair.2.symm
      have hv : v' = v := by
        have := hpair.1
        simpa using this
      have := hpeek v' st' (by rw [hq, hv])
      rw [hst]
      exact this

/-- Claim C10 witness: a one-byte source and a 1-bit first read. -/
theorem C10_lazy_construction_witness :
    (1 : Nat) ≤ 1 ∧
    ((BitReader.new [5]).input = [5] ∧
      32 - (BitReader.new [5]).offset = 0 ∧
      (∀ v st, peek_bits (BitReader.new [5]) 1 = (some v, st) →
        st.input.length < [5].length) ∧
      (∀ v st, read_bits (BitReader.new [5]) 1 = (some v, st) →
        st.input.length < [5].length)) :=
  ⟨by decide, C10_lazy_construction [5] 1 (by decide)⟩

end Libflate

namespace Libflate

/-- The refill loop's result does not depend on the fuel once the fuel
exceeds the source length: every iteration either consumes a source byte or
returns, so the `input.length + 1` fuel used by `peek_bits` is sufficient
and the embedding agrees with the unbounded Rust loop. -/
theorem peekLoop_fuel_sufficient :
    ∀ (fuel1 fuel2 : Nat) (r : BitReader) (w : Nat),
      r.input.length < fuel1 → r.input.length < fuel2 →
      peekLoop fuel1 r w = peekLoop fuel2 r w := by
  intro fuel1
  induction fuel1 with
  | zero => intro fuel2 r w h1 _; omega
  | succ n ih =>
      intro fuel2 r w h1 h2
      cases fuel2 with
      | zero => omega
      | succ m =>
          by_cases hg : 32 - r.offset < w
          · cases hin : r.input with
            | nil =>
                have hfill : fill_next_u8 r
                    = ({ r with offset := r.offset - 8, last_read := r.last_read >>> 8 },
                        false) := by
                  unfold fill_next_u8
                  simp only [hin]
                simp only [peekLoop, hg, if_true, hfill]
            | cons b rest =>
                have hfill : fill_next_u8 r
                    = (⟨rest, (r.last_read >>> 8) ||| ((b % 256) <<< 24),
                        r.offset - 8⟩, true) := by
                  unfold fill_next_u8
                  simp only [hin]
                simp only [peekLoop, hg, if_true, hfill]
                refine ih m _ w ?_ ?_ <;>
                  · show rest.length < _
                    rw [hin] at h1 h2
                    simp at h1 h2
                    omega
          · simp only [peekLoop, hg, if_false]

end Libflate
